import Mathlib

set_option maxHeartbeats 1000000

/-!
Verification of the extractive summarizer (`ai_cli/utils.py`) and the MCQ quiz
generator (`ai_cli/quiz_generator.py`).

Python strings are modelled as `List Char` (a Python `str` is a sequence of
code points).  Regex character classes are modelled at the character level:
`\s` by `isSpaceChar`, `\w` by `isWordChar` (exact on the ASCII inputs the
tool processes), and the two regex operations used by the source
(`re.sub(r"\s+", " ", ·)` and `re.split(r"(?<=[.!?])\s+", ·)`) are embedded
as direct recursive scanners with the same semantics.
-/

/-- A Python string: a sequence of characters. -/
abbrev Text := List Char

/-- Python regex `\s` (the whitespace class, ASCII range). -/
def isSpaceChar (c : Char) : Bool :=
  c == ' ' || c == '\t' || c == '\n' || c == '\r' || c == '\x0b' || c == '\x0c'

/-- The sentence-terminal punctuation of `split_sentences`: `.`, `!`, `?`. -/
def isPunctChar (c : Char) : Bool :=
  c == '.' || c == '!' || c == '?'

/-- Python regex `\w` (word characters: letters, digits, underscore). -/
def isWordChar (c : Char) : Bool :=
  c.isAlphanum || c == '_'

/-- Model of `re.sub(r"\s+", " ", text)`: every run of whitespace collapses to one
space.  The flag records whether the previous character was whitespace. -/
def collapseWS : Bool → Text → Text
  | _, [] => []
  | prev, c :: rest =>
    if isSpaceChar c then
      if prev then collapseWS true rest else ' ' :: collapseWS true rest
    else
      c :: collapseWS false rest

/-- Python `str.strip()` restricted to whitespace. -/
def stripSpaces (l : Text) : Text :=
  ((l.dropWhile isSpaceChar).reverse.dropWhile isSpaceChar).reverse

/-- Model of `utils.normalize_whitespace`: collapse whitespace runs and trim. -/
def normalize_whitespace (text : Text) : Text :=
  stripSpaces (collapseWS false text)

/-- Does the list start with a whitespace character? -/
def firstIsSpace : Text → Bool
  | [] => false
  | c :: _ => isSpaceChar c

/-- Model of `re.split(r"(?<=[.!?])\s+", text)`: a part ends right after a `.`/`!`/`?`
that is followed by whitespace; the whitespace run is consumed.  This is the
recursion-friendly formulation (the recursive call skips the whole
whitespace run at once). -/
def splitAfterPunct : Text → List Text
  | [] => [[]]
  | c :: rest =>
    if isPunctChar c && firstIsSpace rest then
      [c] :: splitAfterPunct (rest.dropWhile isSpaceChar)
    else
      match splitAfterPunct rest with
      | [] => [[c]]
      | p :: ps => (c :: p) :: ps
termination_by l => l.length
decreasing_by
  · simp only [List.length_cons]
    exact Nat.lt_succ_of_le (List.dropWhile_sublist _).length_le
  · simp only [List.length_cons]
    exact Nat.lt_succ_self _

/-- The same splitter as a one-pass state machine (structural recursion, so
it evaluates inside the kernel).  The flag records whether we are currently
consuming the whitespace run after a split point. -/
def splitSMAux : Bool → Text → List Text
  | _, [] => [[]]
  | sep, c :: rest =>
    if sep && isSpaceChar c then
      splitSMAux true rest
    else if isPunctChar c && firstIsSpace rest then
      [c] :: splitSMAux true rest
    else
      match splitSMAux false rest with
      | [] => [[c]]
      | p :: ps => (c :: p) :: ps

theorem splitSMAux_eq : ∀ l : Text,
    splitSMAux false l = splitAfterPunct l ∧
      splitSMAux true l = splitAfterPunct (l.dropWhile isSpaceChar) := by
  intro l
  induction l with
  | nil => exact ⟨by simp [splitSMAux, splitAfterPunct], by simp [splitSMAux, splitAfterPunct]⟩
  | cons c rest ih =>
    have hfalse : splitSMAux false (c :: rest) = splitAfterPunct (c :: rest) := by
      by_cases h : (isPunctChar c && firstIsSpace rest) = true
      · rw [show splitSMAux false (c :: rest) = [c] :: splitSMAux true rest from by
          simp [splitSMAux, h]]
        rw [ih.2]
        rw [show splitAfterPunct (c :: rest) =
          [c] :: splitAfterPunct (rest.dropWhile isSpaceChar) from by
          rw [splitAfterPunct]; simp [h]]
      · rw [show splitSMAux false (c :: rest) =
          (match splitAfterPunct rest with
            | [] => [[c]]
            | p :: ps => (c :: p) :: ps) from by
          rw [splitSMAux]
          simp only [Bool.false_and, Bool.false_eq_true, if_false, h, ih.1]]
        rw [show splitAfterPunct (c :: rest) =
          (match splitAfterPunct rest with
            | [] => [[c]]
            | p :: ps => (c :: p) :: ps) from by
          rw [splitAfterPunct]
          simp only [h, Bool.false_eq_true, if_false]]
    refine ⟨hfalse, ?_⟩
    by_cases hc : isSpaceChar c = true
    · rw [show splitSMAux true (c :: rest) = splitSMAux true rest from by
        simp [splitSMAux, hc]]
      rw [ih.2, List.dropWhile_cons, if_pos hc]
    · have h1 : (true && isSpaceChar c) = false := by simp [hc]
      rw [show splitSMAux true (c :: rest) = splitSMAux false (c :: rest) from by
        rw [splitSMAux, splitSMAux]
        simp only [h1, Bool.false_and, Bool.false_eq_true, if_false]]
      rw [hfalse, List.dropWhile_cons, if_neg hc]

/-- Model of `utils.split_sentences`: normalize, split after punctuation, strip each
part and drop empty parts. -/
def split_sentences (text : Text) : List Text :=
  let t := normalize_whitespace text
  if t = [] then []
  else ((splitSMAux false t).map stripSpaces).filter (fun p => p ≠ [])

/-- Model of `re.findall(r"\w+", text)`: the maximal runs of word characters,
scanned in one pass; `cur` holds the reversed characters of the word run
in progress. -/
def findWordsAux : Text → Text → List Text
  | cur, [] => if cur = [] then [] else [cur.reverse]
  | cur, c :: rest =>
    if isWordChar c then
      findWordsAux (c :: cur) rest
    else if cur = [] then
      findWordsAux [] rest
    else
      cur.reverse :: findWordsAux [] rest

/-- Model of `re.findall(r"\w+", text)`. -/
def findWords (l : Text) : List Text := findWordsAux [] l

/-- Python `str.lower()`. -/
def lowerT (t : Text) : Text := t.map Char.toLower

/-- The stopword set of `ai_cli/utils.py`. -/
def STOPWORDS : List Text :=
  (["a", "an", "and", "are", "as", "at", "be", "by", "for", "from", "has",
    "have", "he", "her", "his", "i", "in", "is", "it", "its", "of", "on",
    "or", "that", "the", "their", "there", "they", "this", "to", "was",
    "were", "will", "with", "you", "your"] : List String).map String.toList

/-- Python `" ".join(parts)`. -/
def joinSpace : List Text → Text
  | [] => []
  | [s] => s
  | s :: t :: rest => s ++ ' ' :: joinSpace (t :: rest)

/-- Python `enumerate`, starting at index `i`. -/
def enumerate {α : Type} (i : Nat) : List α → List (Nat × α)
  | [] => []
  | x :: xs => (i, x) :: enumerate (i + 1) xs

/-- Model of `utils._build_word_frequencies`, represented extensionally: the list of
all counted token occurrences (lowercased tokens of every sentence, minus
stopwords and tokens of length `≤ 2`).  The dictionary is only ever used
through `freqs.get(tok, 0)` (= `word_freq`, the count of `tok` in this
list) and the emptiness test `not freqs` (= this list being empty). -/
def build_word_frequencies (sentences : List Text) : List Text :=
  (sentences.map (fun s =>
    (findWords (lowerT s)).filter (fun tok => tok ∉ STOPWORDS ∧ 2 < tok.length))).flatten

/-- Model of `freqs.get(tok, 0)` for the table of `build_word_frequencies`. -/
def word_freq (sentences : List Text) (tok : Text) : Nat :=
  (build_word_frequencies sentences).count tok

/-- The score of one sentence: the sum of the frequency-table lookups of all
its lowercased tokens. -/
def sentence_score (sentences : List Text) (s : Text) : Nat :=
  ((findWords (lowerT s)).map (word_freq sentences)).sum

/-- The `(score, idx, sentence)` triples of `summarize_text`. -/
def scored_sentences (sentences : List Text) : List (Nat × Nat × Text) :=
  (enumerate 0 sentences).map (fun p => (sentence_score sentences p.2, p.1, p.2))

/-- Stable insertion (descending by score): `x` goes in front of the first
element whose score is `≤` its own, so an element earlier in the input wins
score ties. -/
def insertByScoreDesc (x : Nat × Nat × Text) :
    List (Nat × Nat × Text) → List (Nat × Nat × Text)
  | [] => [x]
  | y :: ys => if y.1 ≤ x.1 then x :: y :: ys else y :: insertByScoreDesc x ys

/-- Model of `scored_sentences.sort(key=lambda x: x[0], reverse=True)`.  Python's sort
is stable, and a stable sort's output is uniquely determined, so it is
realized here by stable insertion sort. -/
def sortByScoreDesc (l : List (Nat × Nat × Text)) : List (Nat × Nat × Text) :=
  l.foldr insertByScoreDesc []

/-- Insertion (ascending by original index). -/
def insertByIdxAsc (x : Nat × Nat × Text) :
    List (Nat × Nat × Text) → List (Nat × Nat × Text)
  | [] => [x]
  | y :: ys => if x.2.1 ≤ y.2.1 then x :: y :: ys else y :: insertByIdxAsc x ys

/-- Model of `sorted(selected, key=lambda x: x[1])`. -/
def sortByIdxAsc (l : List (Nat × Nat × Text)) : List (Nat × Nat × Text) :=
  l.foldr insertByIdxAsc []

/-- Model of `utils.summarize_text`: frequency-based extractive summarizer. -/
def summarize_text (text : Text) (max_sentences : Nat) : Text :=
  let t := normalize_whitespace text
  let sentences := split_sentences t
  if sentences = [] then []
  else if sentences.length ≤ max_sentences then joinSpace sentences
  else if build_word_frequencies sentences = [] then
    joinSpace (sentences.take max_sentences)
  else
    let sorted := sortByScoreDesc (scored_sentences sentences)
    let top := sortByIdxAsc (sorted.take max_sentences)
    joinSpace (top.map (fun x => x.2.2))

/-! ### Invariants of whitespace normalization -/

/-- Every whitespace character of the list is a plain space. -/
def OnlyPlainSpaces (l : Text) : Prop :=
  ∀ c ∈ l, isSpaceChar c = true → c = ' '

/-- No two adjacent whitespace characters. -/
def NoTwoSpaces (l : Text) : Prop :=
  l.Chain' (fun a b => ¬(isSpaceChar a = true ∧ isSpaceChar b = true))

/-- No sentence-terminal punctuation immediately followed by whitespace. -/
def NoPunctSpace (l : Text) : Prop :=
  l.Chain' (fun a b => ¬(isPunctChar a = true ∧ isSpaceChar b = true))

/-- The shape of the output of `normalize_whitespace`. -/
def Normalized (l : Text) : Prop :=
  OnlyPlainSpaces l ∧ NoTwoSpaces l ∧ firstIsSpace l = false ∧
    firstIsSpace l.reverse = false

theorem collapseWS_spec (l : Text) : ∀ b : Bool,
    OnlyPlainSpaces (collapseWS b l) ∧ NoTwoSpaces (collapseWS b l) ∧
      (b = true → firstIsSpace (collapseWS b l) = false) := by
  induction l with
  | nil =>
    intro b
    refine ⟨?_, ?_, fun _ => rfl⟩ <;> simp [collapseWS, OnlyPlainSpaces, NoTwoSpaces]
  | cons c rest ih =>
    intro b
    by_cases hc : isSpaceChar c = true
    · cases b with
      | true =>
        simpa [collapseWS, hc] using ih true
      | false =>
        obtain ⟨h1, h2, h3⟩ := ih true
        have hcol : collapseWS false (c :: rest) = ' ' :: collapseWS true rest := by
          simp [collapseWS, hc]
        refine ⟨?_, ?_, fun h => Bool.noConfusion h⟩
        · intro d hd hds
          rw [hcol] at hd
          rcases List.mem_cons.mp hd with h | h
          · exact h
          · exact h1 d h hds
        · rw [hcol, NoTwoSpaces, List.chain'_cons']
          refine ⟨?_, h2⟩
          intro y hy hcon
          cases hcl : collapseWS true rest with
          | nil => rw [hcl] at hy; simp at hy
          | cons z zs =>
            rw [hcl] at hy
            simp at hy
            subst hy
            have hz := h3 rfl
            rw [hcl] at hz
            simp only [firstIsSpace] at hz
            exact absurd hcon.2 (by simp [hz])
    · obtain ⟨h1, h2, h3⟩ := ih false
      have hcol : collapseWS b (c :: rest) = c :: collapseWS false rest := by
        simp [collapseWS, hc]
      refine ⟨?_, ?_, ?_⟩
      · intro d hd hds
        rw [hcol] at hd
        rcases List.mem_cons.mp hd with h | h
        · subst h; exact absurd hds hc
        · exact h1 d h hds
      · rw [hcol, NoTwoSpaces, List.chain'_cons']
        refine ⟨?_, h2⟩
        intro y _ hcon
        exact hc hcon.1
      · intro _
        rw [hcol]
        simpa [firstIsSpace] using hc

theorem firstIsSpace_dropWhile (l : Text) :
    firstIsSpace (l.dropWhile isSpaceChar) = false := by
  induction l with
  | nil => rfl
  | cons c rest ih =>
    by_cases h : isSpaceChar c = true
    · simpa [List.dropWhile_cons, h] using ih
    · simp [List.dropWhile_cons, h, firstIsSpace]

theorem firstIsSpace_prefix_mono {l₁ l₂ : Text} (h : l₁ <+: l₂)
    (h₂ : firstIsSpace l₂ = false) : firstIsSpace l₁ = false := by
  cases l₁ with
  | nil => rfl
  | cons c rest =>
    obtain ⟨t, ht⟩ := h
    rw [← ht] at h₂
    simpa [firstIsSpace] using h₂

theorem stripSpaces_prefix_dropWhile (l : Text) :
    stripSpaces l <+: l.dropWhile isSpaceChar := by
  rw [stripSpaces]
  have h : (l.dropWhile isSpaceChar).reverse.dropWhile isSpaceChar <:+
      (l.dropWhile isSpaceChar).reverse := List.dropWhile_suffix _
  have := h.reverse
  simpa using this

theorem stripSpaces_within (l : Text) : stripSpaces l <:+: l := by
  have h1 := stripSpaces_prefix_dropWhile l
  have h2 : l.dropWhile isSpaceChar <:+ l := List.dropWhile_suffix _
  obtain ⟨t, ht⟩ := h1
  obtain ⟨s, hs⟩ := h2
  exact ⟨s, t, by rw [List.append_assoc, ht, hs]⟩

theorem stripSpaces_first (l : Text) : firstIsSpace (stripSpaces l) = false :=
  firstIsSpace_prefix_mono (stripSpaces_prefix_dropWhile l) (firstIsSpace_dropWhile l)

theorem stripSpaces_last (l : Text) :
    firstIsSpace (stripSpaces l).reverse = false := by
  rw [stripSpaces, List.reverse_reverse]
  exact firstIsSpace_dropWhile _

theorem normalize_whitespace_normalized (t : Text) :
    Normalized (normalize_whitespace t) := by
  obtain ⟨h1, h2, _⟩ := collapseWS_spec t false
  refine ⟨?_, ?_, stripSpaces_first _, stripSpaces_last _⟩
  · intro c hc
    exact h1 c ((stripSpaces_within _).subset hc)
  · exact List.Chain'.infix h2 (stripSpaces_within _)

theorem collapseWS_fixed : ∀ l : Text, OnlyPlainSpaces l → NoTwoSpaces l →
    ∀ b : Bool, (b = true → firstIsSpace l = false) → collapseWS b l = l := by
  intro l
  induction l with
  | nil => intro _ _ b _; rfl
  | cons c rest ih =>
    intro h1 h2
    have h1' : OnlyPlainSpaces rest := fun d hd => h1 d (List.mem_cons_of_mem _ hd)
    have h2' : NoTwoSpaces rest := (List.chain'_cons'.mp h2).2
    intro b hb
    by_cases hc : isSpaceChar c = true
    · have hbf : b = false := by
        cases b with
        | false => rfl
        | true => simpa [firstIsSpace, hc] using hb rfl
      subst hbf
      have hrest : firstIsSpace rest = false := by
        cases rest with
        | nil => rfl
        | cons d ds =>
          rw [NoTwoSpaces, List.chain'_cons] at h2
          by_cases hd : isSpaceChar d = true
          · exact absurd ⟨hc, hd⟩ h2.1
          · simpa [firstIsSpace] using hd
      have hc' : c = ' ' := h1 c (List.mem_cons_self c rest) hc
      have hcol : collapseWS false (c :: rest) = ' ' :: collapseWS true rest := by
        simp [collapseWS, hc]
      rw [hcol, ih h1' h2' true (fun _ => hrest), hc']
    · have hcol : collapseWS b (c :: rest) = c :: collapseWS false rest := by
        simp [collapseWS, hc]
      rw [hcol, ih h1' h2' false (fun h => Bool.noConfusion h)]

theorem dropWhile_id_of_firstIsSpace {l : Text} (h : firstIsSpace l = false) :
    l.dropWhile isSpaceChar = l := by
  cases l with
  | nil => rfl
  | cons c rest =>
    simp only [firstIsSpace] at h
    simp [List.dropWhile_cons, h]

theorem stripSpaces_fixed {l : Text} (h1 : firstIsSpace l = false)
    (h2 : firstIsSpace l.reverse = false) : stripSpaces l = l := by
  rw [stripSpaces, dropWhile_id_of_firstIsSpace h1,
    dropWhile_id_of_firstIsSpace h2, List.reverse_reverse]

theorem normalize_whitespace_fixed {l : Text} (h : Normalized l) :
    normalize_whitespace l = l := by
  obtain ⟨h1, h2, h3, h4⟩ := h
  rw [normalize_whitespace, collapseWS_fixed _ h1 h2 false (fun h => Bool.noConfusion h),
    stripSpaces_fixed h3 h4]

theorem normalize_whitespace_idem (t : Text) :
    normalize_whitespace (normalize_whitespace t) = normalize_whitespace t :=
  normalize_whitespace_fixed (normalize_whitespace_normalized t)

/-! ### Invariants of sentence splitting -/

/-- The part ends with a sentence-terminal punctuation character. -/
def EndsPunct (p : Text) : Prop :=
  ∃ c, p.getLast? = some c ∧ isPunctChar c = true

/-- Shape of every sentence produced by `split_sentences`. -/
def SentenceOK (s : Text) : Prop :=
  s ≠ [] ∧ firstIsSpace s = false ∧ firstIsSpace s.reverse = false ∧
    OnlyPlainSpaces s ∧ NoTwoSpaces s

theorem map_id_of_mem {α : Type} {l : List α} {f : α → α}
    (h : ∀ x ∈ l, f x = x) : l.map f = l := by
  induction l with
  | nil => rfl
  | cons x xs ih =>
    simp only [List.map_cons, h x (List.mem_cons_self x xs)]
    rw [ih (fun y hy => h y (List.mem_cons_of_mem _ hy))]

theorem isPunctChar_not_space {c : Char} (h : isPunctChar c = true) :
    isSpaceChar c = false := by
  simp only [isPunctChar, Bool.or_eq_true, beq_iff_eq] at h
  rcases h with (h | h) | h <;> subst h <;> rfl

theorem firstIsSpace_append {q : Text} (x : Text) (h : q ≠ []) :
    firstIsSpace (q ++ x) = firstIsSpace q := by
  cases q with
  | nil => exact absurd rfl h
  | cons c rest => rfl

theorem splitAfterPunct_head (l : Text) :
    ∃ p ps, splitAfterPunct l = p :: ps ∧ p.head? = l.head? := by
  induction l using splitAfterPunct.induct with
  | case1 => exact ⟨[], [], by simp [splitAfterPunct], rfl⟩
  | case2 c tail h ih =>
    refine ⟨[c], splitAfterPunct (tail.dropWhile isSpaceChar), ?_, rfl⟩
    simp [splitAfterPunct, h]
  | case3 c tail h hnil ih =>
    obtain ⟨p, ps, hps, _⟩ := ih
    rw [hps] at hnil
    cases hnil
  | case4 c tail h p ps hps ih =>
    refine ⟨c :: p, ps, ?_, rfl⟩
    simp [splitAfterPunct, h, hps]

theorem splitAfterPunct_ne_nil (l : Text) : splitAfterPunct l ≠ [] := by
  obtain ⟨p, ps, hps, _⟩ := splitAfterPunct_head l
  rw [hps]
  exact List.cons_ne_nil _ _

theorem splitAfterPunct_mem_subset (l : Text) :
    ∀ q ∈ splitAfterPunct l, ∀ c ∈ q, c ∈ l := by
  induction l using splitAfterPunct.induct with
  | case1 =>
    intro q hq c hc
    simp only [splitAfterPunct, List.mem_singleton] at hq
    subst hq
    cases hc
  | case2 c tail h ih =>
    intro q hq d hd
    rw [show splitAfterPunct (c :: tail) = [c] :: splitAfterPunct
      (tail.dropWhile isSpaceChar) from by simp [splitAfterPunct, h]] at hq
    rcases List.mem_cons.mp hq with hq | hq
    · subst hq
      rcases List.mem_singleton.mp hd with rfl
      exact List.mem_cons_self _ _
    · exact List.mem_cons_of_mem _ ((List.dropWhile_sublist _).subset (ih q hq d hd))
  | case3 c tail h hnil ih =>
    exact absurd hnil (splitAfterPunct_ne_nil tail)
  | case4 c tail h p ps hps ih =>
    intro q hq d hd
    rw [show splitAfterPunct (c :: tail) = (c :: p) :: ps from by
      simp [splitAfterPunct, h, hps]] at hq
    rcases List.mem_cons.mp hq with hq | hq
    · subst hq
      rcases List.mem_cons.mp hd with rfl | hd
      · exact List.mem_cons_self _ _
      · exact List.mem_cons_of_mem _ (ih p (hps ▸ List.mem_cons_self p ps) d hd)
    · exact List.mem_cons_of_mem _ (ih q (hps ▸ List.mem_cons_of_mem _ hq) d hd)

theorem splitAfterPunct_chain' {R : Char → Char → Prop} :
    ∀ l : Text, List.Chain' R l → ∀ q ∈ splitAfterPunct l, List.Chain' R q := by
  intro l
  induction l using splitAfterPunct.induct with
  | case1 =>
    intro _ q hq
    simp only [splitAfterPunct, List.mem_singleton] at hq
    subst hq
    exact List.chain'_nil
  | case2 c tail h ih =>
    intro hch q hq
    rw [show splitAfterPunct (c :: tail) = [c] :: splitAfterPunct
      (tail.dropWhile isSpaceChar) from by simp [splitAfterPunct, h]] at hq
    rcases List.mem_cons.mp hq with hq | hq
    · subst hq
      exact List.chain'_singleton c
    · exact ih (hch.tail.suffix (List.dropWhile_suffix _)) q hq
  | case3 c tail h hnil ih =>
    exact absurd hnil (splitAfterPunct_ne_nil tail)
  | case4 c tail h p ps hps ih =>
    intro hch q hq
    rw [show splitAfterPunct (c :: tail) = (c :: p) :: ps from by
      simp [splitAfterPunct, h, hps]] at hq
    rcases List.mem_cons.mp hq with hq | hq
    · subst hq
      rw [List.chain'_cons']
      constructor
      · intro y hy
        obtain ⟨p', ps', hps', hhd⟩ := splitAfterPunct_head tail
        rw [hps] at hps'
        obtain ⟨rfl, _⟩ : p = p' ∧ ps = ps' := by
          exact ⟨(List.cons.injEq _ _ _ _ ▸ hps').1, (List.cons.injEq _ _ _ _ ▸ hps').2⟩
        rw [hhd] at hy
        cases tail with
        | nil => cases hy
        | cons d ds =>
          rcases Option.mem_some_iff.mp hy with rfl
          exact (List.chain'_cons.mp hch).1
      · exact ih hch.tail p (hps ▸ List.mem_cons_self p ps)
    · exact ih hch.tail q (hps ▸ List.mem_cons_of_mem _ hq)

theorem splitAfterPunct_noPunctSpace :
    ∀ l : Text, ∀ q ∈ splitAfterPunct l, NoPunctSpace q := by
  intro l
  induction l using splitAfterPunct.induct with
  | case1 =>
    intro q hq
    simp only [splitAfterPunct, List.mem_singleton] at hq
    subst hq
    exact List.chain'_nil
  | case2 c tail h ih =>
    intro q hq
    rw [show splitAfterPunct (c :: tail) = [c] :: splitAfterPunct
      (tail.dropWhile isSpaceChar) from by simp [splitAfterPunct, h]] at hq
    rcases List.mem_cons.mp hq with hq | hq
    · subst hq
      exact List.chain'_singleton c
    · exact ih q hq
  | case3 c tail h hnil ih =>
    exact absurd hnil (splitAfterPunct_ne_nil tail)
  | case4 c tail h p ps hps ih =>
    intro q hq
    rw [show splitAfterPunct (c :: tail) = (c :: p) :: ps from by
      simp [splitAfterPunct, h, hps]] at hq
    rcases List.mem_cons.mp hq with hq | hq
    · subst hq
      rw [NoPunctSpace, List.chain'_cons']
      constructor
      · intro y hy hcon
        obtain ⟨p', ps', hps', hhd⟩ := splitAfterPunct_head tail
        rw [hps] at hps'
        obtain ⟨rfl, _⟩ : p = p' ∧ ps = ps' := by
          exact ⟨(List.cons.injEq _ _ _ _ ▸ hps').1, (List.cons.injEq _ _ _ _ ▸ hps').2⟩
        rw [hhd] at hy
        cases tail with
        | nil => cases hy
        | cons d ds =>
          rcases Option.mem_some_iff.mp hy with rfl
          rw [hcon.1] at h
          simp only [Bool.true_and] at h
          exact h (by simpa [firstIsSpace] using hcon.2)
      · exact ih p (hps ▸ List.mem_cons_self p ps)
    · exact ih q (hps ▸ List.mem_cons_of_mem _ hq)

theorem splitAfterPunct_endsPunct :
    ∀ l : Text, (splitAfterPunct l).Pairwise (fun x _ => EndsPunct x) := by
  intro l
  induction l using splitAfterPunct.induct with
  | case1 =>
    simp only [splitAfterPunct]
    exact List.pairwise_singleton _ _
  | case2 c tail h ih =>
    rw [show splitAfterPunct (c :: tail) = [c] :: splitAfterPunct
      (tail.dropWhile isSpaceChar) from by simp [splitAfterPunct, h]]
    rw [List.pairwise_cons]
    refine ⟨fun q _ => ⟨c, rfl, ?_⟩, ih⟩
    exact (Bool.and_eq_true_iff.mp h).1
  | case3 c tail h hnil ih =>
    exact absurd hnil (splitAfterPunct_ne_nil tail)
  | case4 c tail h p ps hps ih =>
    rw [show splitAfterPunct (c :: tail) = (c :: p) :: ps from by
      simp [splitAfterPunct, h, hps]]
    rw [List.pairwise_cons]
    rw [hps] at ih
    rw [List.pairwise_cons] at ih
    refine ⟨?_, ih.2⟩
    intro q hq
    obtain ⟨d, hd, hdp⟩ := ih.1 q hq
    refine ⟨d, ?_, hdp⟩
    cases p with
    | nil => cases hd
    | cons e es => rw [List.getLast?_cons_cons]; exact hd
/-! ### Reconstruction: splitting a joined list of sentences -/

theorem joinSpace_cons (s r : Text) (rest : List Text) :
    joinSpace (s :: r :: rest) = s ++ ' ' :: joinSpace (r :: rest) := rfl

theorem firstIsSpace_joinSpace {q : Text} (rest : List Text) (h : q ≠ []) :
    firstIsSpace (joinSpace (q :: rest)) = firstIsSpace q := by
  cases rest with
  | nil => rfl
  | cons r rs => rw [joinSpace_cons]; exact firstIsSpace_append _ h

theorem joinSpace_ne_nil {q : Text} (rest : List Text) (h : q ≠ []) :
    joinSpace (q :: rest) ≠ [] := by
  cases rest with
  | nil => exact h
  | cons r rs =>
    rw [joinSpace_cons]
    intro hcon
    rcases List.append_eq_nil.mp hcon with ⟨_, h2⟩
    exact List.cons_ne_nil _ _ h2

theorem firstIsSpace_eq_false_iff (l : Text) :
    firstIsSpace l = false ↔ ∀ c ∈ l.head?, isSpaceChar c = false := by
  cases l with
  | nil => simp [firstIsSpace]
  | cons c cs => simp [firstIsSpace]

theorem firstIsSpace_reverse_eq_false_iff (l : Text) :
    firstIsSpace l.reverse = false ↔ ∀ c ∈ l.getLast?, isSpaceChar c = false := by
  rw [← List.head?_reverse]
  exact firstIsSpace_eq_false_iff l.reverse

theorem splitAfterPunct_of_noPunctSpace :
    ∀ l : Text, NoPunctSpace l → splitAfterPunct l = [l] := by
  intro l
  induction l using splitAfterPunct.induct with
  | case1 => intro _; simp [splitAfterPunct]
  | case2 c tail h ih =>
    intro hnps
    exfalso
    obtain ⟨hc, hsp⟩ := Bool.and_eq_true_iff.mp h
    cases tail with
    | nil => cases hsp
    | cons d ds =>
      exact (List.chain'_cons.mp hnps).1 ⟨hc, by simpa [firstIsSpace] using hsp⟩
  | case3 c tail h hnil ih =>
    exact absurd hnil (splitAfterPunct_ne_nil tail)
  | case4 c tail h p ps hps ih =>
    intro hnps
    have htail := ih ((List.chain'_cons'.mp hnps).2)
    rw [htail] at hps
    injection hps with h1 h2
    subst h1
    subst h2
    simp [splitAfterPunct, h, htail]

theorem splitAfterPunct_append_sentence :
    ∀ p : Text, p ≠ [] → NoPunctSpace p → EndsPunct p →
    ∀ J : Text, firstIsSpace J = false →
    splitAfterPunct (p ++ ' ' :: J) = p :: splitAfterPunct J := by
  intro p
  induction p with
  | nil => intro h; exact absurd rfl h
  | cons c p' ih =>
    intro _ hnps hep J hJ
    cases p' with
    | nil =>
      obtain ⟨d, hd, hdp⟩ := hep
      have hdc : c = d := by
        simpa using hd
      subst hdc
      have hsp : isSpaceChar ' ' = true := rfl
      have hfs : firstIsSpace (' ' :: J) = true := rfl
      have hdrop : (' ' :: J).dropWhile isSpaceChar = J := by
        rw [List.dropWhile_cons, if_pos hsp]
        exact dropWhile_id_of_firstIsSpace hJ
      rw [List.singleton_append]
      rw [show splitAfterPunct (c :: ' ' :: J) =
        [c] :: splitAfterPunct ((' ' :: J).dropWhile isSpaceChar) from by
          rw [splitAfterPunct]
          simp [hdp, hfs]]
      rw [hdrop]
    | cons d p'' =>
      have h1 := (List.chain'_cons.mp hnps).1
      have hcd : (isPunctChar c && isSpaceChar d) = false := by
        by_cases hc : isPunctChar c = true
        · by_cases hd2 : isSpaceChar d = true
          · exact absurd ⟨hc, hd2⟩ h1
          · simp [Bool.eq_false_iff.mpr hd2]
        · simp [Bool.eq_false_iff.mpr hc]
      have hep' : EndsPunct (d :: p'') := by
        obtain ⟨e, he, hpe⟩ := hep
        exact ⟨e, by rw [← List.getLast?_cons_cons (a := c)]; exact he, hpe⟩
      have hstep := ih (List.cons_ne_nil d p'') (List.chain'_cons'.mp hnps).2 hep' J hJ
      rw [List.cons_append]
      rw [show splitAfterPunct (c :: ((d :: p'') ++ ' ' :: J)) =
        match splitAfterPunct ((d :: p'') ++ ' ' :: J) with
        | [] => [[c]]
        | p :: ps => (c :: p) :: ps from by
          rw [splitAfterPunct]
          simp only [List.cons_append, firstIsSpace, hcd, Bool.false_eq_true, if_false]]
      rw [hstep]

theorem splitAfterPunct_joinSpace :
    ∀ P : List Text, (∀ q ∈ P, q ≠ [] ∧ firstIsSpace q = false ∧ NoPunctSpace q) →
    P.Pairwise (fun x _ => EndsPunct x) → P ≠ [] →
    splitAfterPunct (joinSpace P) = P := by
  intro P
  induction P with
  | nil => intro _ _ h; exact absurd rfl h
  | cons q rest ih =>
    intro hinv hpw _
    cases rest with
    | nil =>
      have hq := hinv q (List.mem_cons_self q [])
      simpa [joinSpace] using splitAfterPunct_of_noPunctSpace q hq.2.2
    | cons r rs =>
      have hq := hinv q (List.mem_cons_self q (r :: rs))
      have hr := hinv r (List.mem_cons_of_mem _ (List.mem_cons_self r rs))
      have hep : EndsPunct q := (List.pairwise_cons.mp hpw).1 r (List.mem_cons_self r rs)
      have hJ : firstIsSpace (joinSpace (r :: rs)) = false := by
        rw [firstIsSpace_joinSpace rs hr.1]
        exact hr.2.1
      rw [joinSpace_cons, splitAfterPunct_append_sentence q hq.1 hq.2.2 hep _ hJ,
        ih (fun x hx => hinv x (List.mem_cons_of_mem _ hx))
          (List.pairwise_cons.mp hpw).2 (List.cons_ne_nil _ _)]

theorem normalized_joinSpace :
    ∀ sel : List Text, (∀ s ∈ sel, SentenceOK s) → Normalized (joinSpace sel) := by
  intro sel
  induction sel with
  | nil =>
    intro _
    exact ⟨fun c hc => absurd hc (List.not_mem_nil c), List.chain'_nil, rfl, rfl⟩
  | cons q rest ih =>
    intro hinv
    cases rest with
    | nil =>
      obtain ⟨_, h2, h3, h4, h5⟩ := hinv q (List.mem_cons_self q [])
      exact ⟨h4, h5, h2, h3⟩
    | cons r rs =>
      obtain ⟨hq1, hq2, hq3, hq4, hq5⟩ := hinv q (List.mem_cons_self q (r :: rs))
      obtain ⟨hJ1, hJ2, hJ3, hJ4⟩ := ih (fun x hx => hinv x (List.mem_cons_of_mem _ hx))
      have hr1 : r ≠ [] := (hinv r (List.mem_cons_of_mem _ (List.mem_cons_self r rs))).1
      have hJne : joinSpace (r :: rs) ≠ [] := joinSpace_ne_nil rs hr1
      rw [joinSpace_cons]
      refine ⟨?_, ?_, ?_, ?_⟩
      · intro c hc hcs
        rcases List.mem_append.mp hc with hc | hc
        · exact hq4 c hc hcs
        · rcases List.mem_cons.mp hc with rfl | hc
          · rfl
          · exact hJ1 c hc hcs
      · rw [NoTwoSpaces, List.chain'_append]
        refine ⟨hq5, ?_, ?_⟩
        · rw [List.chain'_cons']
          refine ⟨?_, hJ2⟩
          intro y hy hcon
          cases hJc : joinSpace (r :: rs) with
          | nil => exact hJne hJc
          | cons z zs =>
            rw [hJc] at hy
            simp only [List.head?_cons, Option.mem_some_iff] at hy
            subst hy
            rw [hJc] at hJ3
            simp only [firstIsSpace] at hJ3
            exact absurd hcon.2 (by simp [hJ3])
        · intro x hx y hy hcon
          have hxl : ∀ c ∈ q.getLast?, isSpaceChar c = false :=
            (firstIsSpace_reverse_eq_false_iff q).mp hq3
          exact absurd hcon.1 (by simp [hxl x hx])
      · rw [firstIsSpace_append _ hq1]
        exact hq2
      · rw [firstIsSpace_reverse_eq_false_iff]
        intro c hc
        rw [List.getLast?_append_of_ne_nil _ (List.cons_ne_nil _ _)] at hc
        have hc2 : c ∈ (joinSpace (r :: rs)).getLast? := by
          cases hJc : joinSpace (r :: rs) with
          | nil => exact absurd hJc hJne
          | cons z zs =>
            rw [hJc] at hc
            rw [List.getLast?_cons_cons] at hc
            simpa [hJc] using hc
        exact (firstIsSpace_reverse_eq_false_iff _).mp hJ4 c hc2

/-! ### The sentences produced by `split_sentences` -/

theorem getLast?_of_suffix {l₁ l₂ : Text} (h : l₁ <:+ l₂) (hne : l₁ ≠ []) :
    l₂.getLast? = l₁.getLast? := by
  obtain ⟨s, rfl⟩ := h
  exact List.getLast?_append_of_ne_nil _ hne

theorem stripSpaces_endsPunct {q : Text} (h : EndsPunct q) :
    EndsPunct (stripSpaces q) := by
  obtain ⟨c, hc, hcp⟩ := h
  have hcq : c ∈ q := List.mem_of_mem_getLast? hc
  have hcs : isSpaceChar c = false := isPunctChar_not_space hcp
  have hdne : q.dropWhile isSpaceChar ≠ [] := by
    intro hnil
    have hall := List.dropWhile_eq_nil_iff.mp hnil
    rw [hall c hcq] at hcs
    cases hcs
  have hld : (q.dropWhile isSpaceChar).getLast? = some c := by
    rw [← getLast?_of_suffix (List.dropWhile_suffix _) hdne]
    exact hc
  have hrev : firstIsSpace (q.dropWhile isSpaceChar).reverse = false := by
    rw [firstIsSpace_eq_false_iff]
    intro x hx
    rw [List.head?_reverse, hld, Option.mem_some_iff] at hx
    subst hx
    exact hcs
  have hstrip : stripSpaces q = q.dropWhile isSpaceChar := by
    rw [stripSpaces, dropWhile_id_of_firstIsSpace hrev, List.reverse_reverse]
  exact ⟨c, by rw [hstrip]; exact hld, hcp⟩

theorem split_sentences_spec (t : Text) :
    (∀ s ∈ split_sentences t, SentenceOK s ∧ NoPunctSpace s) ∧
      (split_sentences t).Pairwise (fun x _ => EndsPunct x) := by
  have hnorm := normalize_whitespace_normalized t
  simp only [split_sentences, (splitSMAux_eq _).1]
  by_cases hn : normalize_whitespace t = []
  · simp [hn]
  · rw [if_neg hn]
    constructor
    · intro s hs
      obtain ⟨hs1, hs2⟩ := List.mem_filter.mp hs
      have hsne : s ≠ [] := by simpa using hs2
      obtain ⟨q, hq, rfl⟩ := List.mem_map.mp hs1
      have hsub : stripSpaces q <:+: q := stripSpaces_within q
      refine ⟨⟨hsne, stripSpaces_first q, stripSpaces_last q, ?_, ?_⟩, ?_⟩
      · intro c hc hcs
        exact hnorm.1 c (splitAfterPunct_mem_subset _ q hq c (hsub.subset hc)) hcs
      · exact List.Chain'.infix (splitAfterPunct_chain' _ hnorm.2.1 q hq) hsub
      · exact List.Chain'.infix (splitAfterPunct_noPunctSpace _ q hq) hsub
    · refine List.Pairwise.sublist (List.filter_sublist _) ?_
      rw [List.pairwise_map]
      exact (splitAfterPunct_endsPunct _).imp (fun h => stripSpaces_endsPunct h)

theorem split_sentences_joinSpace (sel : List Text)
    (hinv : ∀ s ∈ sel, SentenceOK s ∧ NoPunctSpace s)
    (hpw : sel.Pairwise (fun x _ => EndsPunct x)) :
    split_sentences (joinSpace sel) = sel := by
  cases sel with
  | nil =>
    simp [split_sentences, joinSpace, normalize_whitespace, collapseWS, stripSpaces]
  | cons q rest =>
    have hq1 : q ≠ [] := (hinv q (List.mem_cons_self q rest)).1.1
    have hN : normalize_whitespace (joinSpace (q :: rest)) = joinSpace (q :: rest) :=
      normalize_whitespace_fixed (normalized_joinSpace _ (fun s hs => (hinv s hs).1))
    have hne := joinSpace_ne_nil rest hq1
    simp only [split_sentences, hN, (splitSMAux_eq _).1]
    rw [if_neg hne]
    rw [splitAfterPunct_joinSpace (q :: rest)
      (fun x hx => ⟨(hinv x hx).1.1, (hinv x hx).1.2.1, (hinv x hx).2⟩) hpw
      (List.cons_ne_nil _ _)]
    rw [map_id_of_mem (fun x hx => stripSpaces_fixed (hinv x hx).1.2.1 (hinv x hx).1.2.2.1)]
    rw [List.filter_eq_self.mpr]
    intro a ha
    simpa using (hinv a ha).1.1

theorem split_sentences_normalize (t : Text) :
    split_sentences (normalize_whitespace t) = split_sentences t := by
  simp only [split_sentences, normalize_whitespace_idem]

/-! ### Sorting and selection in `summarize_text` -/

/-- The strict order realized by the stable descending-score sort on a list
in ascending original-index order: higher score first, ties by lower index. -/
def LexGT (a b : Nat × Nat × Text) : Prop :=
  b.1 < a.1 ∨ (a.1 = b.1 ∧ a.2.1 < b.2.1)

theorem enumerate_map_snd {α : Type} : ∀ (l : List α) (i : Nat),
    (enumerate i l).map Prod.snd = l := by
  intro l
  induction l with
  | nil => intro i; rfl
  | cons x xs ih => intro i; simp [enumerate, ih]

theorem enumerate_fst_ge {α : Type} : ∀ (l : List α) (i : Nat),
    ∀ p ∈ enumerate i l, i ≤ p.1 := by
  intro l
  induction l with
  | nil => intro i p hp; cases hp
  | cons x xs ih =>
    intro i p hp
    rcases List.mem_cons.mp hp with rfl | hp
    · exact Nat.le_refl i
    · exact Nat.le_of_succ_le (ih (i + 1) p hp)

theorem enumerate_pairwise_fst {α : Type} : ∀ (l : List α) (i : Nat),
    (enumerate i l).Pairwise (fun a b => a.1 < b.1) := by
  intro l
  induction l with
  | nil => intro i; exact List.Pairwise.nil
  | cons x xs ih =>
    intro i
    rw [enumerate, List.pairwise_cons]
    exact ⟨fun p hp => Nat.lt_of_succ_le (enumerate_fst_ge xs (i + 1) p hp), ih (i + 1)⟩

theorem insertByScoreDesc_mem {x z : Nat × Nat × Text} :
    ∀ l, z ∈ insertByScoreDesc x l ↔ z = x ∨ z ∈ l := by
  intro l
  induction l with
  | nil => simp [insertByScoreDesc]
  | cons y ys ih =>
    rw [insertByScoreDesc]
    by_cases h : y.1 ≤ x.1
    · rw [if_pos h]
      simp only [List.mem_cons]
    · rw [if_neg h]
      simp only [List.mem_cons, ih]
      tauto

theorem insertByScoreDesc_perm (x : Nat × Nat × Text) :
    ∀ l, (insertByScoreDesc x l).Perm (x :: l) := by
  intro l
  induction l with
  | nil => exact List.Perm.refl _
  | cons y ys ih =>
    rw [insertByScoreDesc]
    by_cases h : y.1 ≤ x.1
    · rw [if_pos h]
    · rw [if_neg h]
      exact (ih.cons y).trans (List.Perm.swap x y ys)

theorem sortByScoreDesc_perm : ∀ l, (sortByScoreDesc l).Perm l := by
  intro l
  induction l with
  | nil => exact List.Perm.refl _
  | cons x xs ih =>
    exact (insertByScoreDesc_perm x (sortByScoreDesc xs)).trans (ih.cons x)

theorem insertByScoreDesc_pairwise {x : Nat × Nat × Text} :
    ∀ {l}, l.Pairwise LexGT → (∀ y ∈ l, x.2.1 < y.2.1) →
      (insertByScoreDesc x l).Pairwise LexGT := by
  intro l
  induction l with
  | nil => intro _ _; exact List.pairwise_singleton _ _
  | cons y ys ih =>
    intro hl hx
    have hyh := List.pairwise_cons.mp hl
    rw [insertByScoreDesc]
    by_cases h : y.1 ≤ x.1
    · rw [if_pos h]
      rw [List.pairwise_cons]
      refine ⟨?_, hl⟩
      intro z hz
      have hzx : z.1 ≤ x.1 := by
        rcases List.mem_cons.mp hz with rfl | hz'
        · exact h
        · rcases hyh.1 z hz' with hlt | heq
          · exact Nat.le_trans (Nat.le_of_lt hlt) h
          · exact Nat.le_trans (Nat.le_of_eq heq.1.symm) h
      rcases Nat.lt_or_ge z.1 x.1 with hlt | hge
      · exact Or.inl hlt
      · exact Or.inr ⟨Nat.le_antisymm hge hzx, hx z hz⟩
    · rw [if_neg h]
      rw [List.pairwise_cons]
      refine ⟨?_, ih hyh.2 (fun z hz => hx z (List.mem_cons_of_mem _ hz))⟩
      intro z hz
      rcases (insertByScoreDesc_mem ys).mp hz with rfl | hz'
      · exact Or.inl (Nat.lt_of_not_le h)
      · exact hyh.1 z hz'

theorem sortByScoreDesc_pairwise :
    ∀ {l}, l.Pairwise (fun a b => a.2.1 < b.2.1) →
      (sortByScoreDesc l).Pairwise LexGT := by
  intro l
  induction l with
  | nil => intro _; exact List.Pairwise.nil
  | cons x xs ih =>
    intro h
    have hh := List.pairwise_cons.mp h
    refine insertByScoreDesc_pairwise (ih hh.2) ?_
    intro y hy
    exact hh.1 y ((sortByScoreDesc_perm xs).mem_iff.mp hy)

theorem insertByIdxAsc_mem {x z : Nat × Nat × Text} :
    ∀ l, z ∈ insertByIdxAsc x l ↔ z = x ∨ z ∈ l := by
  intro l
  induction l with
  | nil => simp [insertByIdxAsc]
  | cons y ys ih =>
    rw [insertByIdxAsc]
    by_cases h : x.2.1 ≤ y.2.1
    · rw [if_pos h]
      simp only [List.mem_cons]
    · rw [if_neg h]
      simp only [List.mem_cons, ih]
      tauto

theorem insertByIdxAsc_perm (x : Nat × Nat × Text) :
    ∀ l, (insertByIdxAsc x l).Perm (x :: l) := by
  intro l
  induction l with
  | nil => exact List.Perm.refl _
  | cons y ys ih =>
    rw [insertByIdxAsc]
    by_cases h : x.2.1 ≤ y.2.1
    · rw [if_pos h]
    · rw [if_neg h]
      exact (ih.cons y).trans (List.Perm.swap x y ys)

theorem sortByIdxAsc_perm : ∀ l, (sortByIdxAsc l).Perm l := by
  intro l
  induction l with
  | nil => exact List.Perm.refl _
  | cons x xs ih =>
    exact (insertByIdxAsc_perm x (sortByIdxAsc xs)).trans (ih.cons x)

theorem insertByIdxAsc_pairwise {x : Nat × Nat × Text} :
    ∀ {l}, l.Pairwise (fun a b => a.2.1 ≤ b.2.1) →
      (insertByIdxAsc x l).Pairwise (fun a b => a.2.1 ≤ b.2.1) := by
  intro l
  induction l with
  | nil => intro _; exact List.pairwise_singleton _ _
  | cons y ys ih =>
    intro hl
    have hyh := List.pairwise_cons.mp hl
    rw [insertByIdxAsc]
    by_cases h : x.2.1 ≤ y.2.1
    · rw [if_pos h]
      rw [List.pairwise_cons]
      refine ⟨?_, hl⟩
      intro z hz
      rcases List.mem_cons.mp hz with rfl | hz'
      · exact h
      · exact Nat.le_trans h (hyh.1 z hz')
    · rw [if_neg h]
      rw [List.pairwise_cons]
      refine ⟨?_, ih hyh.2⟩
      intro z hz
      rcases (insertByIdxAsc_mem ys).mp hz with rfl | hz'
      · exact Nat.le_of_not_le h
      · exact hyh.1 z hz'

theorem sortByIdxAsc_pairwise :
    ∀ l, (sortByIdxAsc l).Pairwise (fun a b => a.2.1 ≤ b.2.1) := by
  intro l
  induction l with
  | nil => exact List.Pairwise.nil
  | cons x xs ih => exact insertByIdxAsc_pairwise ih

theorem sublist_of_subset_of_pairwise_lt {α : Type} :
    ∀ l₂ l₁ : List (Nat × α), l₁.Pairwise (fun a b => a.1 < b.1) →
      l₂.Pairwise (fun a b => a.1 < b.1) → (∀ x ∈ l₁, x ∈ l₂) → l₁.Sublist l₂ := by
  intro l₂
  induction l₂ with
  | nil =>
    intro l₁ _ _ hsub
    cases l₁ with
    | nil => exact List.Sublist.refl []
    | cons b l₁' => exact absurd (hsub b (List.mem_cons_self b l₁')) (List.not_mem_nil b)
  | cons a l₂' ih =>
    intro l₁ h1 h2 hsub
    cases l₁ with
    | nil => exact List.nil_sublist _
    | cons b l₁' =>
      have h2h := List.pairwise_cons.mp h2
      have h1h := List.pairwise_cons.mp h1
      by_cases hab : b = a
      · subst hab
        refine List.Sublist.cons₂ b (ih l₁' h1h.2 h2h.2 ?_)
        intro x hx
        rcases List.mem_cons.mp (hsub x (List.mem_cons_of_mem _ hx)) with rfl | hmem
        · exact absurd (h1h.1 x hx) (lt_irrefl x.1)
        · exact hmem
      · refine List.Sublist.cons a (ih (b :: l₁') h1 h2h.2 ?_)
        intro x hx
        rcases List.mem_cons.mp (hsub x hx) with rfl | hmem
        · rcases List.mem_cons.mp hx with rfl | hx'
          · exact absurd rfl hab
          · have hb2 : b ∈ l₂' := by
              rcases List.mem_cons.mp (hsub b (List.mem_cons_self b l₁')) with rfl | hmem'
              · exact absurd rfl hab
              · exact hmem'
            exact absurd (lt_trans (h2h.1 b hb2) (h1h.1 x hx')) (lt_irrefl x.1)
        · exact hmem

theorem scored_sentences_pairwise (S : List Text) :
    (scored_sentences S).Pairwise (fun a b => a.2.1 < b.2.1) := by
  rw [scored_sentences, List.pairwise_map]
  exact (enumerate_pairwise_fst S 0).imp (fun h => h)

theorem scored_sentences_mem {S : List Text} {x : Nat × Nat × Text}
    (hx : x ∈ scored_sentences S) : (x.2.1, x.2.2) ∈ enumerate 0 S := by
  rw [scored_sentences, List.mem_map] at hx
  obtain ⟨p, hp, rfl⟩ := hx
  exact hp

theorem selection_sublist (S : List Text) (n : Nat) :
    ((sortByIdxAsc ((sortByScoreDesc (scored_sentences S)).take n)).map
      (fun x => x.2.2)).Sublist S ∧
    (sortByIdxAsc ((sortByScoreDesc (scored_sentences S)).take n)).length ≤ n := by
  have hperm := sortByScoreDesc_perm (scored_sentences S)
  have htake : ((sortByScoreDesc (scored_sentences S)).take n).Sublist
      (sortByScoreDesc (scored_sentences S)) := List.take_sublist n _
  have hperm2 := sortByIdxAsc_perm ((sortByScoreDesc (scored_sentences S)).take n)
  have hmem : ∀ x ∈ sortByIdxAsc ((sortByScoreDesc (scored_sentences S)).take n),
      x ∈ scored_sentences S := fun x hx =>
    hperm.mem_iff.mp (htake.subset (hperm2.mem_iff.mp hx))
  have h0 : ((scored_sentences S).map (fun x => x.2.1)).Nodup := by
    rw [scored_sentences, List.map_map]
    have : ((enumerate 0 S).map fun p => p.1).Pairwise (fun a b => a < b) := by
      rw [List.pairwise_map]
      exact enumerate_pairwise_fst S 0
    exact this.imp (fun h => Nat.ne_of_lt h)
  have hnodup : ((sortByIdxAsc ((sortByScoreDesc (scored_sentences S)).take n)).map
      (fun x => x.2.1)).Nodup := by
    have h1 : ((sortByScoreDesc (scored_sentences S)).map (fun x => x.2.1)).Nodup :=
      ((hperm.map (fun x => x.2.1)).nodup_iff).mpr h0
    have h2 := (htake.map (fun x => x.2.1)).nodup h1
    exact ((hperm2.map (fun x => x.2.1)).nodup_iff).mpr h2
  have hpwlt : (sortByIdxAsc ((sortByScoreDesc (scored_sentences S)).take n)).Pairwise
      (fun a b => a.2.1 < b.2.1) := by
    have hle := sortByIdxAsc_pairwise ((sortByScoreDesc (scored_sentences S)).take n)
    have hne : (sortByIdxAsc ((sortByScoreDesc (scored_sentences S)).take n)).Pairwise
        (fun a b => a.2.1 ≠ b.2.1) := by
      rw [← List.pairwise_map (f := fun x : Nat × Nat × Text => x.2.1) (R := Ne)]
      exact hnodup
    exact (hle.and hne).imp (fun h => Nat.lt_of_le_of_ne h.1 h.2)
  have hL : ((sortByIdxAsc ((sortByScoreDesc (scored_sentences S)).take n)).map
      (fun x => (x.2.1, x.2.2))).Sublist (enumerate 0 S) := by
    refine sublist_of_subset_of_pairwise_lt _ _ ?_ (enumerate_pairwise_fst S 0) ?_
    · rw [List.pairwise_map]
      exact hpwlt.imp (fun h => h)
    · intro x hx
      rw [List.mem_map] at hx
      obtain ⟨z, hz, rfl⟩ := hx
      exact scored_sentences_mem (hmem z hz)
  constructor
  · have := hL.map Prod.snd
    rw [List.map_map, enumerate_map_snd] at this
    exact this
  · rw [hperm2.length_eq]
    exact List.length_take_le n _

/-! ### The claims about the summarizer -/

theorem summarize_text_unfold (t : Text) (n : Nat) :
    summarize_text t n =
      (if split_sentences t = [] then []
       else if (split_sentences t).length ≤ n then joinSpace (split_sentences t)
       else if build_word_frequencies (split_sentences t) = [] then
         joinSpace ((split_sentences t).take n)
       else joinSpace ((sortByIdxAsc ((sortByScoreDesc (scored_sentences
         (split_sentences t))).take n)).map (fun x => x.2.2))) := by
  simp only [summarize_text, split_sentences_normalize]

theorem summarize_selects (t : Text) (n : Nat) :
    ∃ sel, sel.Sublist (split_sentences t) ∧ sel.length ≤ n ∧
      summarize_text t n = joinSpace sel := by
  rw [summarize_text_unfold]
  by_cases h1 : split_sentences t = []
  · rw [if_pos h1]
    exact ⟨[], h1 ▸ List.nil_sublist _, Nat.zero_le n, rfl⟩
  · rw [if_neg h1]
    by_cases h2 : (split_sentences t).length ≤ n
    · rw [if_pos h2]
      exact ⟨split_sentences t, List.Sublist.refl _, h2, rfl⟩
    · rw [if_neg h2]
      by_cases h3 : build_word_frequencies (split_sentences t) = []
      · rw [if_pos h3]
        exact ⟨_, List.take_sublist n _, List.length_take_le n _, rfl⟩
      · rw [if_neg h3]
        obtain ⟨hsub, hlen⟩ := selection_sublist (split_sentences t) n
        exact ⟨_, hsub, by simpa using hlen, rfl⟩

/-- C1: for every text whose segmented sentence count is at most
`max_sentences` (with `max_sentences ≥ 1`), `summarize_text` returns exactly
those sentences, in original order, joined by single spaces — the
identity/short-circuit path, on which no scoring is performed. -/
theorem claim_C1 (t : Text) (n : Nat) (_hn : 1 ≤ n)
    (h : (split_sentences t).length ≤ n) :
    summarize_text t n = joinSpace (split_sentences t) := by
  rw [summarize_text_unfold]
  by_cases h1 : split_sentences t = []
  · rw [if_pos h1, h1]
    rfl
  · rw [if_neg h1, if_pos h]

theorem claim_C1_witness :
    1 ≤ 5 ∧
    (split_sentences ("The quick brown fox jumps over the lazy dog.".toList)).length ≤ 5 ∧
    summarize_text ("The quick brown fox jumps over the lazy dog.".toList) 5 =
      joinSpace (split_sentences ("The quick brown fox jumps over the lazy dog.".toList)) :=
  ⟨by decide, by decide, claim_C1 _ 5 (by decide) (by decide)⟩

/-- C2: for every text and every `max_sentences ≥ 1`, the sentences in the
output of `summarize_text` occur in document order: the output is the
space-join of a sublist (a subsequence, hence non-decreasing in original
index) of the sentence list, on every path (identity, fallback, scored). -/
theorem claim_C2 (t : Text) (n : Nat) (_hn : 1 ≤ n) :
    ∃ sel, sel.Sublist (split_sentences t) ∧ summarize_text t n = joinSpace sel := by
  obtain ⟨sel, h1, _, h3⟩ := summarize_selects t n
  exact ⟨sel, h1, h3⟩

theorem claim_C2_witness :
    1 ≤ 2 ∧ ∃ sel,
      sel.Sublist (split_sentences ("This is the first sentence of a small document. This is the second sentence, which adds more detail. Here is the third sentence describing additional context. Finally, this is the fourth sentence that concludes the text.".toList)) ∧
      summarize_text ("This is the first sentence of a small document. This is the second sentence, which adds more detail. Here is the third sentence describing additional context. Finally, this is the fourth sentence that concludes the text.".toList) 2 = joinSpace sel :=
  ⟨by decide, claim_C2 _ 2 (by decide)⟩

/-- C8: `summarize_text` is a total function (the embedding never raises);
if segmentation yields zero sentences it returns the empty string, and if
the word-frequency table is empty it returns the first `max_sentences`
sentences joined by single spaces (on the identity path the two joins
coincide because `take n` is the identity there). -/
theorem claim_C8 (t : Text) (n : Nat) :
    (split_sentences t = [] → summarize_text t n = []) ∧
    (build_word_frequencies (split_sentences t) = [] →
      summarize_text t n = joinSpace ((split_sentences t).take n)) := by
  rw [summarize_text_unfold]
  constructor
  · intro h
    rw [if_pos h]
  · intro h
    by_cases h1 : split_sentences t = []
    · rw [if_pos h1, h1, List.take_nil]
      rfl
    · rw [if_neg h1]
      by_cases h2 : (split_sentences t).length ≤ n
      · rw [if_pos h2, List.take_of_length_le h2]
      · rw [if_neg h2, if_pos h]

theorem claim_C8_witness :
    split_sentences ("   ".toList) = [] ∧
    summarize_text ("   ".toList) 3 = [] ∧
    build_word_frequencies (split_sentences ("a b. c d. e f.".toList)) = [] ∧
    summarize_text ("a b. c d. e f.".toList) 2 =
      joinSpace ((split_sentences ("a b. c d. e f.".toList)).take 2) :=
  ⟨by decide, (claim_C8 _ 3).1 (by decide), by decide, (claim_C8 _ 2).2 (by decide)⟩

/-- C10: `summarize_text` is idempotent in its text argument: the output is
already whitespace-normalized, re-segments into exactly the selected
sentences (at most `max_sentences` of them), and therefore takes the
identity path, which rejoins them into the same string. -/
theorem claim_C10 (t : Text) (n : Nat) (_hn : 1 ≤ n) :
    summarize_text (summarize_text t n) n = summarize_text t n := by
  obtain ⟨sel, hsub, hlen, heq⟩ := summarize_selects t n
  rw [heq]
  have hspec := split_sentences_spec t
  have hinv : ∀ s ∈ sel, SentenceOK s ∧ NoPunctSpace s :=
    fun s hs => hspec.1 s (hsub.subset hs)
  have hpw : sel.Pairwise (fun x _ => EndsPunct x) :=
    List.Pairwise.sublist hsub hspec.2
  have hsplit : split_sentences (joinSpace sel) = sel :=
    split_sentences_joinSpace sel hinv hpw
  by_cases hone : sel = []
  · subst hone
    rw [summarize_text_unfold, hsplit, if_pos rfl]
    rfl
  · rw [summarize_text_unfold, hsplit, if_neg hone, if_pos hlen]

theorem claim_C10_witness :
    1 ≤ 2 ∧
    summarize_text (summarize_text ("aaa bbb. aaa. ccc.".toList) 2) 2 =
      summarize_text ("aaa bbb. aaa. ccc.".toList) 2 :=
  ⟨by decide, claim_C10 _ 2 (by decide)⟩

/-- C3: in the scored-selection path (more sentences than `max_sentences`,
non-empty frequency table), the selected prefix of the stable descending
sort consists of the `max_sentences` highest-scoring sentences, and score
ties always prefer the lower original index: every selected triple beats
every rejected triple either by a strictly higher score or, at equal
scores, by a strictly lower original index; the output rejoins the
selection sorted back by index. -/
theorem claim_C3 (t : Text) (n : Nat)
    (h1 : n < (split_sentences t).length)
    (h2 : build_word_frequencies (split_sentences t) ≠ []) :
    ((sortByScoreDesc (scored_sentences (split_sentences t))).take n ++
      (sortByScoreDesc (scored_sentences (split_sentences t))).drop n).Perm
        (scored_sentences (split_sentences t)) ∧
    (∀ a ∈ (sortByScoreDesc (scored_sentences (split_sentences t))).take n,
      ∀ b ∈ (sortByScoreDesc (scored_sentences (split_sentences t))).drop n,
        b.1 < a.1 ∨ (a.1 = b.1 ∧ a.2.1 < b.2.1)) ∧
    summarize_text t n = joinSpace ((sortByIdxAsc ((sortByScoreDesc
      (scored_sentences (split_sentences t))).take n)).map (fun x => x.2.2)) := by
  have hpw := sortByScoreDesc_pairwise (scored_sentences_pairwise (split_sentences t))
  refine ⟨?_, ?_, ?_⟩
  · rw [List.take_append_drop]
    exact sortByScoreDesc_perm _
  · have hpw2 : ((sortByScoreDesc (scored_sentences (split_sentences t))).take n ++
        (sortByScoreDesc (scored_sentences (split_sentences t))).drop n).Pairwise LexGT := by
      rw [List.take_append_drop]
      exact hpw
    exact fun a ha b hb => (List.pairwise_append.mp hpw2).2.2 a ha b hb
  · rw [summarize_text_unfold]
    rw [if_neg (List.ne_nil_of_length_pos (Nat.lt_of_le_of_lt (Nat.zero_le n) h1)),
      if_neg (Nat.not_le.mpr h1), if_neg h2]

theorem claim_C3_witness :
    1 < (split_sentences ("aaa bbb. aaa. ccc.".toList)).length ∧
    build_word_frequencies (split_sentences ("aaa bbb. aaa. ccc.".toList)) ≠ [] ∧
    summarize_text ("aaa bbb. aaa. ccc.".toList) 1 =
      joinSpace ((sortByIdxAsc ((sortByScoreDesc (scored_sentences
        (split_sentences ("aaa bbb. aaa. ccc.".toList)))).take 1)).map (fun x => x.2.2)) :=
  ⟨by decide, by decide, (claim_C3 _ 1 (by decide) (by decide)).2.2⟩

/-! ### The quiz generator (`ai_cli/quiz_generator.py`)

Randomness is modelled by oracles quantified over in the theorems:
`pick k` drives the `random.choice` of the `k`-th random call (the element
at index `pick k mod length` is chosen, which ranges over exactly the
possible outcomes), and `shuf k l` is the result of the `k`-th call being a
`random.shuffle` of `l`; a real run always produces a permutation, so the
theorems assume `∀ k l, (shuf k l).Perm l`.  `_build_distractors` contains
a `while` loop that does not advance when its synthetic candidate collides
with the `seen` set, so the source can loop forever; the embedding returns
`none` exactly in that case, and `none` propagates to the caller. -/

/-- Model of `quiz_generator.MCQ`. -/
structure MCQ where
  question : Text
  options : List Text
  answer_index : Nat
deriving DecidableEq

/-- The correct option of an MCQ: the entry `answer_index` points at. -/
def correct_answer (m : MCQ) : Text := m.options.getD m.answer_index []

/-- Python `list.index(x)`: index of the first element equal to `x`. -/
def firstIndexOf (x : Text) : List Text → Nat
  | [] => 0
  | y :: ys => if y = x then 0 else firstIndexOf x ys + 1

/-- Model of `quiz_generator._select_answer_word`: candidates are the `\w+` tokens of
the sentence of length > 3 that are neither stopwords nor already-used
answers (case-insensitively); `random.choice` picks one (or `None` when no
candidate exists, without consuming randomness). -/
def _select_answer_word (pick : Nat → Nat) (k : Nat) (sentence : Text)
    (used_answers : List Text) : Option Text :=
  let candidates := (findWords sentence).filter
    (fun tok => 3 < tok.length ∧ lowerT tok ∉ STOPWORDS ∧ lowerT tok ∉ used_answers)
  if candidates = [] then none
  else some (candidates.getD (pick k % candidates.length) [])

/-- Case-insensitive whole-word match of `answer` at the head of `l`: `l`
starts with `answer` up to case, and the character after the match (if any)
is not a word character (the right `\b`). -/
def matchesAnswerCI (answer l : Text) : Bool :=
  (lowerT (l.take answer.length) == lowerT answer) &&
    (match l.drop answer.length with
     | [] => true
     | d :: _ => !isWordChar d)

/-- The scan of `re.sub(rf"\b{re.escape(answer)}\b", "____", sentence,
count=1, flags=IGNORECASE)`: replace the first case-insensitive whole-word
occurrence of `answer` (itself a `\w+` token, so the left `\b` holds exactly
when the previous character is not a word character) with `____`. -/
def replaceFirstWord (answer : Text) : Bool → Text → Text
  | _, [] => []
  | prevIsWord, c :: rest =>
    if !prevIsWord && matchesAnswerCI answer (c :: rest) then
      '_' :: '_' :: '_' :: '_' :: (c :: rest).drop answer.length
    else
      c :: replaceFirstWord answer (isWordChar c) rest

/-- Model of `quiz_generator._build_question`. -/
def _build_question (sentence answer : Text) : Text :=
  replaceFirstWord answer false sentence

/-- The vocabulary scan of `quiz_generator._build_distractors`: collect up
to `k` vocabulary tokens that are new case-insensitively (`seen` starts out
holding the answer), longer than 3 characters and not stopwords; returns
the distractors and the final `seen` set (as the list of lowercased values
in insertion order — the source's set is only used for membership). -/
def vocabScan (k : Nat) : List Text → List Text → List Text → List Text × List Text
  | seen, ds, [] => (ds, seen)
  | seen, ds, token :: rest =>
    if lowerT token ∈ seen then vocabScan k seen ds rest
    else if token.length ≤ 3 ∨ lowerT token ∈ STOPWORDS then vocabScan k seen ds rest
    else
      if k ≤ (ds ++ [token]).length then (ds ++ [token], seen ++ [lowerT token])
      else vocabScan k (seen ++ [lowerT token]) (ds ++ [token]) rest

/-- The `while len(distractors) < k` loop of `_build_distractors`.  Each
successful iteration appends `answer[:3] + str(len(distractors)+1)` and the
length grows by one, so starting from length `len` exactly `fuel = k - len`
iterations run; when the synthetic value collides case-insensitively with
`seen`, the source's loop recomputes the identical value forever (the
counter never advances), which the embedding reports as `none`. -/
def synthLoop (answer : Text) : Nat → List Text → List Text → Option (List Text)
  | 0, _, ds => some ds
  | fuel + 1, seen, ds =>
    if lowerT (answer.take 3 ++ (Nat.repr (ds.length + 1)).toList) ∈ seen then none
    else synthLoop answer fuel
      (seen ++ [lowerT (answer.take 3 ++ (Nat.repr (ds.length + 1)).toList)])
      (ds ++ [answer.take 3 ++ (Nat.repr (ds.length + 1)).toList])

/-- Model of `quiz_generator._build_distractors` (`none` = the source diverges). -/
def _build_distractors (answer : Text) (vocabulary : List Text) (k : Nat) :
    Option (List Text) :=
  match synthLoop answer (k - (vocabScan k [lowerT answer] [] vocabulary).1.length)
      (vocabScan k [lowerT answer] [] vocabulary).2
      (vocabScan k [lowerT answer] [] vocabulary).1 with
  | none => none
  | some ds => some (ds.take k)

/-- Python `str.split()`: the maximal runs of non-whitespace characters. -/
def splitWSAux : Text → Text → List Text
  | cur, [] => if cur = [] then [] else [cur.reverse]
  | cur, c :: rest =>
    if !isSpaceChar c then splitWSAux (c :: cur) rest
    else if cur = [] then splitWSAux [] rest
    else cur.reverse :: splitWSAux [] rest

/-- Python `str.split()`. -/
def splitWS (l : Text) : List Text := splitWSAux [] l

/-- The candidate sentences of `generate_mcqs_from_text`: the sentences of
the normalized text with at least 5 whitespace-separated words. -/
def eligible_sentences (text : Text) : List Text :=
  (split_sentences (normalize_whitespace text)).filter
    (fun s => 5 ≤ (splitWS s).length)

/-- The vocabulary loop of `generate_mcqs_from_text`: deduplicate the `\w+`
tokens of the whole text case-insensitively in first-occurrence order,
dropping stopwords and tokens of length `≤ 3`. -/
def vocab_unique : List Text → List Text → List Text → List Text
  | _, acc, [] => acc
  | seen, acc, token :: rest =>
    if lowerT token ∈ seen ∨ lowerT token ∈ STOPWORDS ∨ (lowerT token).length ≤ 3 then
      vocab_unique seen acc rest
    else vocab_unique (seen ++ [lowerT token]) (acc ++ [token]) rest

/-- The per-sentence loop of `generate_mcqs_from_text`; `k` counts the
random calls made so far, `mcqs` and `used` accumulate the source's
`mcqs` and `used_answers`.  The source's locals `question` and `options`
are inlined.  `none` = the source diverges in `_build_distractors`. -/
def genLoop (pick : Nat → Nat) (shuf : Nat → List Text → List Text)
    (vocab : List Text) (num_questions : Nat) :
    List Text → Nat → List MCQ → List Text → Option (List MCQ)
  | [], _, mcqs, _ => some mcqs
  | sentence :: rest, k, mcqs, used =>
    if num_questions ≤ mcqs.length then some mcqs
    else
      match _select_answer_word pick k sentence used with
      | none => genLoop pick shuf vocab num_questions rest k mcqs used
      | some answer =>
        if _build_question sentence answer = sentence then
          genLoop pick shuf vocab num_questions rest (k + 1) mcqs used
        else
          match _build_distractors answer vocab 3 with
          | none => none
          | some distractors =>
            genLoop pick shuf vocab num_questions rest (k + 2)
              (mcqs ++ [⟨_build_question sentence answer,
                shuf (k + 1) (distractors ++ [answer]),
                firstIndexOf answer (shuf (k + 1) (distractors ++ [answer]))⟩])
              (used ++ [lowerT answer])

/-- Model of `quiz_generator.generate_mcqs_from_text` (`none` = the source diverges
inside `_build_distractors`). -/
def generate_mcqs_from_text (pick : Nat → Nat)
    (shuf : Nat → List Text → List Text) (text : Text)
    (num_questions : Nat) : Option (List MCQ) :=
  let t := normalize_whitespace text
  let sentences := (split_sentences t).filter (fun s => 5 ≤ (splitWS s).length)
  if sentences = [] then some []
  else
    genLoop pick shuf (vocab_unique [] [] (findWords t)) num_questions
      sentences 0 [] []

/-! ### Facts about the quiz generator -/

theorem firstIndexOf_lt {x : Text} : ∀ {l : List Text},
    x ∈ l → firstIndexOf x l < l.length := by
  intro l
  induction l with
  | nil => intro h; cases h
  | cons y ys ih =>
    intro h
    rw [firstIndexOf]
    by_cases hyx : y = x
    · rw [if_pos hyx]
      exact Nat.succ_pos _
    · rw [if_neg hyx]
      have hx : x ∈ ys := by
        rcases List.mem_cons.mp h with h' | h'
        · exact absurd h'.symm hyx
        · exact h'
      exact Nat.succ_lt_succ (ih hx)

theorem getD_firstIndexOf {x : Text} : ∀ {l : List Text},
    x ∈ l → l.getD (firstIndexOf x l) [] = x := by
  intro l
  induction l with
  | nil => intro h; cases h
  | cons y ys ih =>
    intro h
    rw [firstIndexOf]
    by_cases hyx : y = x
    · rw [if_pos hyx]
      exact hyx
    · rw [if_neg hyx]
      have hx : x ∈ ys := by
        rcases List.mem_cons.mp h with h' | h'
        · exact absurd h'.symm hyx
        · exact h'
      simpa [List.getD_cons_succ] using ih hx

theorem countP_eq_one_of_pairwise {f : Text → Text} :
    ∀ {l : List Text} {x : Text}, l.Pairwise (fun a b => f a ≠ f b) → x ∈ l →
      l.countP (fun o => f o == f x) = 1 := by
  intro l
  induction l with
  | nil => intro x _ hx; cases hx
  | cons y ys ih =>
    intro x hpw hx
    have hyh := List.pairwise_cons.mp hpw
    rw [List.countP_cons]
    rcases List.mem_cons.mp hx with rfl | hx'
    · have h0 : ys.countP (fun o => f o == f x) = 0 := by
        rw [List.countP_eq_zero]
        intro a ha
        simp only [beq_iff_eq]
        intro hc
        exact hyh.1 a ha hc.symm
      rw [h0]
      simp
    · rw [ih hyh.2 hx']
      have hne : (f y == f x) = false := by
        simp only [beq_eq_false_iff_ne, ne_eq]
        exact hyh.1 x hx'
      rw [hne]
      simp

theorem getD_mod_mem {l : List Text} (h : l ≠ []) (n : Nat) :
    l.getD (n % l.length) [] ∈ l := by
  have hpos : 0 < l.length := List.length_pos.mpr h
  have hlt : n % l.length < l.length := Nat.mod_lt _ hpos
  rw [List.getD_eq_getElem _ _ hlt]
  exact List.getElem_mem _

theorem _select_answer_word_spec {pick : Nat → Nat} {k : Nat} {sentence : Text}
    {used : List Text} {answer : Text}
    (h : _select_answer_word pick k sentence used = some answer) :
    3 < answer.length ∧ lowerT answer ∉ STOPWORDS ∧ lowerT answer ∉ used := by
  simp only [_select_answer_word] at h
  split at h
  · cases h
  · next hne =>
    injection h with h
    subst h
    have hmem := getD_mod_mem hne (pick k)
    rw [List.mem_filter] at hmem
    simpa using hmem.2

theorem vocabScan_spec (ans : Text) (k : Nat) :
    ∀ (v seen ds : List Text),
    (ds.map lowerT).Nodup → (∀ x ∈ ds, lowerT x ∈ seen) → lowerT ans ∈ seen →
    lowerT ans ∉ ds.map lowerT →
    ((vocabScan k seen ds v).1.map lowerT).Nodup ∧
    (∀ x ∈ (vocabScan k seen ds v).1, lowerT x ∈ (vocabScan k seen ds v).2) ∧
    lowerT ans ∈ (vocabScan k seen ds v).2 ∧
    lowerT ans ∉ (vocabScan k seen ds v).1.map lowerT := by
  intro v
  induction v with
  | nil =>
    intro seen ds h1 h2 h3 h4
    simp only [vocabScan]
    exact ⟨h1, h2, h3, h4⟩
  | cons token rest ih =>
    intro seen ds h1 h2 h3 h4
    rw [vocabScan]
    by_cases ht1 : lowerT token ∈ seen
    · rw [if_pos ht1]
      exact ih seen ds h1 h2 h3 h4
    · rw [if_neg ht1]
      by_cases ht2 : token.length ≤ 3 ∨ lowerT token ∈ STOPWORDS
      · rw [if_pos ht2]
        exact ih seen ds h1 h2 h3 h4
      · rw [if_neg ht2]
        have h1' : ((ds ++ [token]).map lowerT).Nodup := by
          rw [List.map_append, List.nodup_append]
          refine ⟨h1, List.nodup_singleton _, ?_⟩
          intro a ha
          rw [List.mem_map] at ha
          obtain ⟨x, hx, rfl⟩ := ha
          simp only [List.map_cons, List.map_nil, List.mem_singleton]
          intro hc
          exact ht1 (hc ▸ h2 x hx)
        have h2' : ∀ x ∈ ds ++ [token],
            lowerT x ∈ seen ++ [lowerT token] := by
          intro x hx
          rcases List.mem_append.mp hx with hx' | hx'
          · exact List.mem_append_left _ (h2 x hx')
          · rcases List.mem_singleton.mp hx' with rfl
            exact List.mem_append_right _ (List.mem_singleton_self _)
        have h3' : lowerT ans ∈ seen ++ [lowerT token] := List.mem_append_left _ h3
        have h4' : lowerT ans ∉ (ds ++ [token]).map lowerT := by
          rw [List.map_append]
          intro hc
          rcases List.mem_append.mp hc with hc' | hc'
          · exact h4 hc'
          · simp only [List.map_cons, List.map_nil, List.mem_singleton] at hc'
            exact ht1 (hc' ▸ h3)
        by_cases ht3 : k ≤ (ds ++ [token]).length
        · rw [if_pos ht3]
          exact ⟨h1', h2', h3', h4'⟩
        · rw [if_neg ht3]
          exact ih _ _ h1' h2' h3' h4'

theorem vocabScan_length (k : Nat) :
    ∀ (v seen ds : List Text), ds.length < k →
      (vocabScan k seen ds v).1.length ≤ k := by
  intro v
  induction v with
  | nil =>
    intro seen ds h
    simpa [vocabScan] using Nat.le_of_lt h
  | cons token rest ih =>
    intro seen ds h
    rw [vocabScan]
    by_cases ht1 : lowerT token ∈ seen
    · rw [if_pos ht1]
      exact ih seen ds h
    · rw [if_neg ht1]
      by_cases ht2 : token.length ≤ 3 ∨ lowerT token ∈ STOPWORDS
      · rw [if_pos ht2]
        exact ih seen ds h
      · rw [if_neg ht2]
        by_cases ht3 : k ≤ (ds ++ [token]).length
        · rw [if_pos ht3]
          simp only [List.length_append, List.length_cons, List.length_nil]
          omega
        · rw [if_neg ht3]
          exact ih _ _ (Nat.lt_of_not_le ht3)

theorem synthLoop_spec (ans : Text) :
    ∀ (fuel : Nat) (seen ds res : List Text),
    (ds.map lowerT).Nodup → (∀ x ∈ ds, lowerT x ∈ seen) → lowerT ans ∈ seen →
    lowerT ans ∉ ds.map lowerT →
    synthLoop ans fuel seen ds = some res →
    res.length = ds.length + fuel ∧ (res.map lowerT).Nodup ∧
      lowerT ans ∉ res.map lowerT := by
  intro fuel
  induction fuel with
  | zero =>
    intro seen ds res h1 _ _ h4 h
    injection h with h
    subst h
    exact ⟨rfl, h1, h4⟩
  | succ fuel ih =>
    intro seen ds res h1 h2 h3 h4 h
    rw [synthLoop] at h
    by_cases hcol : lowerT (ans.take 3 ++ (Nat.repr (ds.length + 1)).toList) ∈ seen
    · rw [if_pos hcol] at h
      cases h
    · rw [if_neg hcol] at h
      have h1' : ((ds ++ [ans.take 3 ++ (Nat.repr (ds.length + 1)).toList]).map
          lowerT).Nodup := by
        rw [List.map_append, List.nodup_append]
        refine ⟨h1, List.nodup_singleton _, ?_⟩
        intro a ha
        rw [List.mem_map] at ha
        obtain ⟨x, hx, rfl⟩ := ha
        simp only [List.map_cons, List.map_nil, List.mem_singleton]
        intro hc
        exact hcol (hc ▸ h2 x hx)
      have h2' : ∀ x ∈ ds ++ [ans.take 3 ++ (Nat.repr (ds.length + 1)).toList],
          lowerT x ∈ seen ++ [lowerT (ans.take 3 ++ (Nat.repr (ds.length + 1)).toList)] := by
        intro x hx
        rcases List.mem_append.mp hx with hx' | hx'
        · exact List.mem_append_left _ (h2 x hx')
        · rcases List.mem_singleton.mp hx' with rfl
          exact List.mem_append_right _ (List.mem_singleton_self _)
      have h4' : lowerT ans ∉ (ds ++ [ans.take 3 ++ (Nat.repr (ds.length + 1)).toList]).map
          lowerT := by
        rw [List.map_append]
        intro hc
        rcases List.mem_append.mp hc with hc' | hc'
        · exact h4 hc'
        · simp only [List.map_cons, List.map_nil, List.mem_singleton] at hc'
          exact hcol (hc' ▸ h3)
      obtain ⟨hl, hn, ha⟩ := ih _ _ _ h1' h2' (List.mem_append_left _ h3) h4' h
      refine ⟨?_, hn, ha⟩
      rw [hl]
      simp only [List.length_append, List.length_cons, List.length_nil]
      omega

theorem _build_distractors_spec {answer : Text} {vocab : List Text} {ds : List Text}
    (h : _build_distractors answer vocab 3 = some ds) :
    ds.length = 3 ∧ (ds.map lowerT).Nodup ∧ lowerT answer ∉ ds.map lowerT := by
  rw [_build_distractors] at h
  have hscan := vocabScan_spec answer 3 vocab [lowerT answer] []
    List.nodup_nil (by intro x hx; cases hx) (List.mem_singleton_self _) (by simp)
  have hslen := vocabScan_length 3 vocab [lowerT answer] [] (by simp)
  cases hsl : synthLoop answer (3 - (vocabScan 3 [lowerT answer] [] vocab).1.length)
      (vocabScan 3 [lowerT answer] [] vocab).2
      (vocabScan 3 [lowerT answer] [] vocab).1 with
  | none =>
    rw [hsl] at h
    cases h
  | some ds' =>
    rw [hsl] at h
    injection h with h
    subst h
    obtain ⟨hlen', hnd', hna'⟩ :=
      synthLoop_spec answer _ _ _ _ hscan.1 hscan.2.1 hscan.2.2.1 hscan.2.2.2 hsl
    have hlen3 : ds'.length = 3 := by
      rw [hlen']
      omega
    rw [List.take_of_length_le (Nat.le_of_eq hlen3)]
    exact ⟨hlen3, hnd', hna'⟩

/-- Well-formedness of one generated MCQ: exactly 4 options, a valid answer
index, pairwise case-insensitively distinct options, and the option pointed
at by `answer_index` occurring exactly once — case-insensitively and
exactly. -/
def MCQok (m : MCQ) : Prop :=
  m.options.length = 4 ∧ m.answer_index < m.options.length ∧
  m.options.Pairwise (fun a b => lowerT a ≠ lowerT b) ∧
  m.options.countP (fun o => lowerT o == lowerT (correct_answer m)) = 1 ∧
  m.options.countP (fun o => o == correct_answer m) = 1

theorem new_mcq_ok {answer : Text} {ds options : List Text} (q : Text)
    (hlen : ds.length = 3) (hnodup : (ds.map lowerT).Nodup)
    (hans : lowerT answer ∉ ds.map lowerT)
    (hperm : options.Perm (ds ++ [answer])) :
    MCQok ⟨q, options, firstIndexOf answer options⟩ ∧
      correct_answer ⟨q, options, firstIndexOf answer options⟩ = answer := by
  have hmem : answer ∈ options :=
    hperm.mem_iff.mpr (List.mem_append_right _ (List.mem_singleton_self _))
  have hidx := firstIndexOf_lt hmem
  have hca : correct_answer ⟨q, options, firstIndexOf answer options⟩ = answer := by
    rw [correct_answer]
    exact getD_firstIndexOf hmem
  have hlen4 : options.length = 4 := by
    rw [hperm.length_eq, List.length_append, hlen]
    rfl
  have hnodup2 : (options.map lowerT).Nodup := by
    refine ((hperm.map lowerT).nodup_iff).mpr ?_
    rw [List.map_append, List.nodup_append]
    refine ⟨hnodup, List.nodup_singleton _, ?_⟩
    intro a ha
    simp only [List.map_cons, List.map_nil, List.mem_singleton]
    intro hc
    exact hans (hc ▸ ha)
  have hpw : options.Pairwise (fun a b => lowerT a ≠ lowerT b) :=
    List.pairwise_map.mp hnodup2
  have hpwid : options.Pairwise (fun a b => a ≠ b) :=
    hpw.imp (fun h hc => h (congrArg lowerT hc))
  refine ⟨⟨hlen4, hidx, hpw, ?_, ?_⟩, hca⟩
  · rw [hca]
    exact countP_eq_one_of_pairwise (f := lowerT) hpw hmem
  · rw [hca]
    exact countP_eq_one_of_pairwise (f := fun x => x) hpwid hmem

theorem genLoop_spec (pick : Nat → Nat) (shuf : Nat → List Text → List Text)
    (hshuf : ∀ k l, (shuf k l).Perm l) (vocab : List Text) (n : Nat) :
    ∀ (sents : List Text) (k : Nat) (mcqs : List MCQ) (used : List Text)
      (res : List MCQ),
    genLoop pick shuf vocab n sents k mcqs used = some res →
    (∀ m ∈ mcqs, MCQok m ∧ lowerT (correct_answer m) ∈ used) →
    mcqs.Pairwise (fun a b => lowerT (correct_answer a) ≠ lowerT (correct_answer b)) →
    mcqs.length ≤ n →
    res.length ≤ n ∧ res.length ≤ mcqs.length + sents.length ∧
      (∀ m ∈ res, MCQok m) ∧
      res.Pairwise (fun a b => lowerT (correct_answer a) ≠ lowerT (correct_answer b)) := by
  intro sents
  induction sents with
  | nil =>
    intro k mcqs used res h hmok hpw hlen
    rw [genLoop] at h
    injection h with h
    subst h
    exact ⟨hlen, Nat.le_refl _, fun m hm => (hmok m hm).1, hpw⟩
  | cons sentence rest ih =>
    intro k mcqs used res h hmok hpw hlen
    rw [genLoop] at h
    split at h
    · injection h with h
      subst h
      refine ⟨hlen, ?_, fun m hm => (hmok m hm).1, hpw⟩
      simp only [List.length_cons]
      omega
    · next hdone =>
      split at h
      · obtain ⟨r1, r2, r3, r4⟩ := ih _ _ _ _ h hmok hpw hlen
        refine ⟨r1, ?_, r3, r4⟩
        simp only [List.length_cons]
        omega
      · next answer hsel =>
        split at h
        · obtain ⟨r1, r2, r3, r4⟩ := ih _ _ _ _ h hmok hpw hlen
          refine ⟨r1, ?_, r3, r4⟩
          simp only [List.length_cons]
          omega
        · next hq =>
          split at h
          · cases h
          · next ds hbd =>
            obtain ⟨hd3, hdn, hda⟩ := _build_distractors_spec hbd
            obtain ⟨hok, hca⟩ := new_mcq_ok (_build_question sentence answer)
              hd3 hdn hda (hshuf (k + 1) (ds ++ [answer]))
            obtain ⟨hal, hast, hau⟩ := _select_answer_word_spec hsel
            have hinv' : ∀ m ∈ mcqs ++ [MCQ.mk (_build_question sentence answer)
                (shuf (k + 1) (ds ++ [answer]))
                (firstIndexOf answer (shuf (k + 1) (ds ++ [answer])))],
                MCQok m ∧ lowerT (correct_answer m) ∈ used ++ [lowerT answer] := by
              intro m hm
              rcases List.mem_append.mp hm with hm' | hm'
              · exact ⟨(hmok m hm').1, List.mem_append_left _ (hmok m hm').2⟩
              · rcases List.mem_singleton.mp hm' with rfl
                refine ⟨hok, ?_⟩
                rw [hca]
                exact List.mem_append_right _ (List.mem_singleton_self _)
            have hpw' : (mcqs ++ [MCQ.mk (_build_question sentence answer)
                (shuf (k + 1) (ds ++ [answer]))
                (firstIndexOf answer (shuf (k + 1) (ds ++ [answer])))]).Pairwise
                (fun a b => lowerT (correct_answer a) ≠ lowerT (correct_answer b)) := by
              rw [List.pairwise_append]
              refine ⟨hpw, List.pairwise_singleton _ _, ?_⟩
              intro a ha b hb
              rcases List.mem_singleton.mp hb with rfl
              rw [hca]
              intro hc
              exact hau (hc ▸ (hmok a ha).2)
            have hlen' : (mcqs ++ [MCQ.mk (_build_question sentence answer)
                (shuf (k + 1) (ds ++ [answer]))
                (firstIndexOf answer (shuf (k + 1) (ds ++ [answer])))]).length ≤ n := by
              rw [List.length_append]
              simp only [List.length_cons, List.length_nil]
              omega
            obtain ⟨r1, r2, r3, r4⟩ := ih _ _ _ _ h hinv' hpw' hlen'
            refine ⟨r1, ?_, r3, r4⟩
            rw [List.length_append] at r2
            simp only [List.length_cons, List.length_nil] at r2 ⊢
            omega

theorem generate_mcqs_from_text_unfold (pick : Nat → Nat)
    (shuf : Nat → List Text → List Text) (text : Text) (n : Nat) :
    generate_mcqs_from_text pick shuf text n =
      if eligible_sentences text = [] then some []
      else genLoop pick shuf
        (vocab_unique [] [] (findWords (normalize_whitespace text))) n
        (eligible_sentences text) 0 [] [] := by
  simp only [generate_mcqs_from_text, eligible_sentences]

/-- C4: for every MCQ returned by `generate_mcqs_from_text` (under any
outcome of the random choices — `pick` arbitrary, `shuf` any permutation),
the four options are pairwise distinct case-insensitively, and exactly one
option equals the correct answer (the one `answer_index` points at)
case-insensitively; equivalently, no two options of any returned MCQ are
equal case-insensitively. -/
theorem claim_C4 (pick : Nat → Nat) (shuf : Nat → List Text → List Text)
    (hshuf : ∀ k l, (shuf k l).Perm l) (text : Text) (n : Nat)
    (res : List MCQ) (h : generate_mcqs_from_text pick shuf text n = some res) :
    ∀ m ∈ res, m.options.Pairwise (fun a b => lowerT a ≠ lowerT b) ∧
      m.options.countP (fun o => lowerT o == lowerT (correct_answer m)) = 1 := by
  rw [generate_mcqs_from_text_unfold] at h
  by_cases he : eligible_sentences text = []
  · rw [if_pos he] at h
    injection h with h
    subst h
    intro m hm
    cases hm
  · rw [if_neg he] at h
    obtain ⟨_, _, hok, _⟩ := genLoop_spec pick shuf hshuf _ n _ 0 [] [] res h
      (fun m hm => absurd hm (List.not_mem_nil m)) List.Pairwise.nil (Nat.zero_le n)
    intro m hm
    obtain ⟨_, _, hpw, hc1, _⟩ := hok m hm
    exact ⟨hpw, hc1⟩

/-- C5: `generate_mcqs_from_text` returns at most `num_questions` MCQs and at
most as many as there are eligible sentences, and every returned MCQ has
exactly 4 options with an `answer_index` in `0..3` that points at the correct
answer — the uniquely occurring option it designates. -/
theorem claim_C5 (pick : Nat → Nat) (shuf : Nat → List Text → List Text)
    (hshuf : ∀ k l, (shuf k l).Perm l) (text : Text) (n : Nat)
    (res : List MCQ) (h : generate_mcqs_from_text pick shuf text n = some res) :
    res.length ≤ n ∧ res.length ≤ (eligible_sentences text).length ∧
      ∀ m ∈ res, m.options.length = 4 ∧ m.answer_index < 4 ∧
        m.options.countP (fun o => o == correct_answer m) = 1 := by
  rw [generate_mcqs_from_text_unfold] at h
  by_cases he : eligible_sentences text = []
  · rw [if_pos he] at h
    injection h with h
    subst h
    exact ⟨Nat.zero_le _, Nat.zero_le _, fun m hm => absurd hm (List.not_mem_nil m)⟩
  · rw [if_neg he] at h
    obtain ⟨r1, r2, hok, _⟩ := genLoop_spec pick shuf hshuf _ n _ 0 [] [] res h
      (fun m hm => absurd hm (List.not_mem_nil m)) List.Pairwise.nil (Nat.zero_le n)
    refine ⟨r1, by simpa using r2, ?_⟩
    intro m hm
    obtain ⟨h4, hidx, _, _, hc⟩ := hok m hm
    exact ⟨h4, h4 ▸ hidx, hc⟩

/-- C6: across all MCQs produced by a single `generate_mcqs_from_text` call,
no two questions have the same correct-answer word case-insensitively (each
chosen answer is recorded in `used_answers` and later answer selection
excludes every previously used answer). -/
theorem claim_C6 (pick : Nat → Nat) (shuf : Nat → List Text → List Text)
    (hshuf : ∀ k l, (shuf k l).Perm l) (text : Text) (n : Nat)
    (res : List MCQ) (h : generate_mcqs_from_text pick shuf text n = some res) :
    res.Pairwise (fun a b => lowerT (correct_answer a) ≠ lowerT (correct_answer b)) := by
  rw [generate_mcqs_from_text_unfold] at h
  by_cases he : eligible_sentences text = []
  · rw [if_pos he] at h
    injection h with h
    subst h
    exact List.Pairwise.nil
  · rw [if_neg he] at h
    exact (genLoop_spec pick shuf hshuf _ n _ 0 [] [] res h
      (fun m hm => absurd hm (List.not_mem_nil m)) List.Pairwise.nil (Nat.zero_le n)).2.2.2

/-- A concrete run of the generator: index-0 choices and identity shuffles
on a one-sentence text. -/
def demo_mcq : MCQ :=
  MCQ.mk ("____ makes coding fun for all.".toList)
    ["makes".toList, "coding".toList, "Pyt3".toList, "Python".toList] 3

theorem claim_C4_witness :
    generate_mcqs_from_text (fun _ => 0) (fun _ l => l)
        ("Python makes coding fun for all.".toList) 1 = some [demo_mcq] ∧
    (demo_mcq.options.Pairwise (fun a b => lowerT a ≠ lowerT b) ∧
      demo_mcq.options.countP
        (fun o => lowerT o == lowerT (correct_answer demo_mcq)) = 1) :=
  ⟨by decide, claim_C4 (fun _ => 0) (fun _ l => l) (fun _ _ => List.Perm.refl _)
    ("Python makes coding fun for all.".toList) 1 [demo_mcq] (by decide)
    demo_mcq (List.mem_singleton_self _)⟩

theorem claim_C5_witness :
    generate_mcqs_from_text (fun _ => 0) (fun _ l => l)
        ("Python makes coding fun for all.".toList) 1 = some [demo_mcq] ∧
    ([demo_mcq].length ≤ 1 ∧
      [demo_mcq].length ≤ (eligible_sentences
        ("Python makes coding fun for all.".toList)).length ∧
      ∀ m ∈ [demo_mcq], m.options.length = 4 ∧ m.answer_index < 4 ∧
        m.options.countP (fun o => o == correct_answer m) = 1) :=
  ⟨by decide, claim_C5 (fun _ => 0) (fun _ l => l) (fun _ _ => List.Perm.refl _)
    ("Python makes coding fun for all.".toList) 1 [demo_mcq] (by decide)⟩

/-- The two MCQs of a concrete two-sentence run. -/
def demo_mcq2 : MCQ :=
  MCQ.mk ("____ makes coding fun for all.".toList)
    ["makes".toList, "coding".toList, "Ruby".toList, "Python".toList] 3

def demo_mcq3 : MCQ :=
  MCQ.mk ("____ gives teams neat tools too.".toList)
    ["Python".toList, "makes".toList, "coding".toList, "Ruby".toList] 3

theorem claim_C6_witness :
    generate_mcqs_from_text (fun _ => 0) (fun _ l => l)
        ("Python makes coding fun for all. Ruby gives teams neat tools too.".toList)
        5 = some [demo_mcq2, demo_mcq3] ∧
    ([demo_mcq2, demo_mcq3].Pairwise
      (fun a b => lowerT (correct_answer a) ≠ lowerT (correct_answer b))) :=
  ⟨by decide, claim_C6 (fun _ => 0) (fun _ l => l) (fun _ _ => List.Perm.refl _)
    ("Python makes coding fun for all. Ruby gives teams neat tools too.".toList)
    5 [demo_mcq2, demo_mcq3] (by decide)⟩

/-- C7 (code bug): with answer `"cat1"` and vocabulary `["cat1"]` — as
reached from `generate_mcqs_from_text` on `"cat1 is in it at on."` — the
vocabulary scan yields no distractor and the first synthetic candidate
`"cat1"[:3] + "1" = "cat1"` collides case-insensitively with the `seen`
set, so the source's `while` loop recomputes the same value forever instead
of terminating with exactly 3 distractors; the embedding reports the
divergence as `none`, which propagates to the top-level call. -/
theorem claim_C7_code_bug :
    _build_distractors ("cat1".toList) ["cat1".toList] 3 = none ∧
    generate_mcqs_from_text (fun _ => 0) (fun _ l => l)
      ("cat1 is in it at on.".toList) 1 = none :=
  ⟨by decide, by decide⟩

/-! ### `summarizer.summarize_file` (for C9) -/

/-- The two failure modes of `summarize_file` in the embedding: the
rejected-argument error for an unsupported length (`ValueError` in the
source), and a failure of the file read (which is abstracted away). -/
inductive SummarizeFileError where
  | unsupportedLength (length : Text)
  | loadError
deriving DecidableEq

/-- Model of `summarizer.SUMMARY_SENTENCE_MAP`. -/
def SUMMARY_SENTENCE_MAP : List (Text × Nat) :=
  [("short".toList, 3), ("medium".toList, 7), ("long".toList, 12)]

/-- Model of `summarizer.summarize_file` with file loading abstracted into the
`load` argument (`none` = the read would fail).  As in the source, the
length is validated before any input is read. -/
def summarize_file (load : Option Text) (length : Text) :
    Except SummarizeFileError Text :=
  match SUMMARY_SENTENCE_MAP.find? (fun p => p.1 == length) with
  | none => .error (.unsupportedLength length)
  | some p =>
    match load with
    | none => .error .loadError
    | some text => .ok (summarize_text text p.2)

/-- C9 counterexample: a question count outside the supported set is *not*
rejected by `generate_mcqs_from_text` — there is no count validation in the
quiz generator: count 0 (outside the CLI's `{5, 10, 20}` and below the
documented minimum of 1) is processed normally and yields `some []` rather
than any error. -/
theorem claim_C9_counterexample :
    generate_mcqs_from_text (fun _ => 0) (fun _ l => l)
      ("Python makes coding fun for all.".toList) 0 = some [] := by
  decide

/-- C9 (amended): `summarize_file` does reject any length outside
`{short, medium, long}` before reading the input (the rejected-argument
error is returned whatever the load outcome, including a failing read);
`generate_mcqs_from_text`, by contrast, performs no question-count
validation: any count is processed, a count of 0 immediately yielding
`some []`. -/
theorem claim_C9_amended :
    (∀ (load : Option Text) (length : Text),
      SUMMARY_SENTENCE_MAP.find? (fun p => p.1 == length) = none →
      summarize_file load length = .error (.unsupportedLength length)) ∧
    (∀ (pick : Nat → Nat) (shuf : Nat → List Text → List Text) (text : Text),
      generate_mcqs_from_text pick shuf text 0 = some []) := by
  constructor
  · intro load length h
    rw [summarize_file, h]
  · intro pick shuf text
    rw [generate_mcqs_from_text_unfold]
    by_cases he : eligible_sentences text = []
    · rw [if_pos he]
    · rw [if_neg he]
      cases hel : eligible_sentences text with
      | nil => exact absurd hel he
      | cons s rest =>
        rw [genLoop, if_pos (Nat.zero_le _)]

theorem claim_C9_witness :
    summarize_file (some ("Hi there.".toList)) ("huge".toList) =
      .error (.unsupportedLength ("huge".toList)) ∧
    generate_mcqs_from_text (fun _ => 0) (fun _ l => l)
      ("Python makes coding fun for all.".toList) 0 = some [] :=
  ⟨claim_C9_amended.1 (some ("Hi there.".toList)) ("huge".toList) (by decide),
    claim_C9_amended.2 (fun _ => 0) (fun _ l => l) _⟩

